import Mathlib

/-!
Verification of the generic search / CSP core of the CCSPiP-in-cpp repository.

The definitions below are shallow embeddings of the C++ sources:
  * `Node`, `node_to_path`, `dfs`, `bfs`, `astar` from `src/Chapter2/generic_search.h`;
  * `Constraintm`, `CSPm`, `CSP_make`, `add_constraint`, `consistent`,
    `backtracking_search` from the CSP header (`csp.h`);
  * `mapSatisfied`, `queensSatisfied`, `smmSatisfied` from the three CSP
    demo programs (map coloring, N-queens, SEND+MORE=MONEY).

C++ `double` costs/heuristics are modelled as exact rationals, pointer-linked
parent chains as an inductive type, `std::unordered_map` / `std::map` as
association lists with the corresponding lookup/insert semantics, and the
unbounded `while` loops as fuelled recursion.
-/

namespace CCSP

/-! ## Association-list model of `std::map` / `std::unordered_map` -/

/-- `m.find(k)` on an association list: first binding of `k`, if any. -/
def lookupA {V D : Type} [DecidableEq V] : List (V × D) → V → Option D
  | [], _ => none
  | (k, v) :: rest, key => if k = key then some v else lookupA rest key

/-- `m[k] = v` on an association list: overwrite the first binding of `k`,
or append a fresh binding when `k` is absent. -/
def insertA {V D : Type} [DecidableEq V] : List (V × D) → V → D → List (V × D)
  | [], key, v => [(key, v)]
  | (k, w) :: rest, key, v =>
      if k = key then (key, v) :: rest else (k, w) :: insertA rest key v

/-! ## Search nodes (`Node<T>` from generic_search.h)

`state`, nullable `parent` pointer, `cost` and `heuristic` (C++ `double`,
modelled as `ℚ`; the constructor defaults both to `0`).  The pointer chain is
modelled as a nested inductive, which makes every parent chain finite (the
chains the search algorithms build are finite). -/

inductive Node (σ : Type) : Type where
  | mk (state : σ) (parent : Option (Node σ)) (cost : ℚ) (heuristic : ℚ)

def Node.state {σ : Type} : Node σ → σ
  | .mk s _ _ _ => s

def Node.parent {σ : Type} : Node σ → Option (Node σ)
  | .mk _ p _ _ => p

def Node.cost {σ : Type} : Node σ → ℚ
  | .mk _ _ c _ => c

def Node.heuristic {σ : Type} : Node σ → ℚ
  | .mk _ _ _ h => h

/-- Number of parent links below this node (root has depth 0). -/
def Node.depth {σ : Type} : Node σ → Nat
  | .mk _ none _ _ => 0
  | .mk _ (some p) _ _ => p.depth + 1

/-- The collection loop of `node_to_path`: `while (node) { path.push_back(state); node = parent; }`. -/
def collectStates {σ : Type} : Node σ → List σ
  | .mk s none _ _ => [s]
  | .mk s (some p) _ _ => s :: collectStates p

/-- `node_to_path` from generic_search.h: collect states along the parent
chain, then reverse. -/
def node_to_path {σ : Type} (n : Node σ) : List σ :=
  (collectStates n).reverse

/-- Spec-side description: the states from the root down to the node, in
root-first order (built by recursion from the root). -/
def statesFromRoot {σ : Type} : Node σ → List σ
  | .mk s none _ _ => [s]
  | .mk s (some p) _ _ => statesFromRoot p ++ [s]

/-- Number of nodes in the parent chain (the node itself included). -/
def chainCount {σ : Type} : Node σ → Nat
  | .mk _ none _ _ => 1
  | .mk _ (some p) _ _ => chainCount p + 1

/-- State stored at the root of the parent chain. -/
def rootState {σ : Type} : Node σ → σ
  | .mk s none _ _ => s
  | .mk _ (some p) _ _ => rootState p

/-! ## The search algorithms from generic_search.h

All three are `while (!frontier.empty())` loops; the loops are modelled with a
fuel parameter (running out of fuel yields `none`, the same value as an
exhausted frontier; every theorem below is conditional on the run producing a
node, so the fuel never hides a positive result).  The explored set
(`std::set<T>`) is a list used for membership only. -/

/-- Body of the successor loop shared by `dfs` (stack discipline: each new
child node is pushed on top of the frontier). -/
def dfsChildFold {σ : Type} [DecidableEq σ] (n : Node σ)
    (acc : List (Node σ) × List σ) (c : σ) : List (Node σ) × List σ :=
  if c ∈ acc.2 then acc else (Node.mk c (some n) 0 0 :: acc.1, c :: acc.2)

/-- `dfs` from generic_search.h: stack frontier, explored set, goal test at
pop time. -/
def dfsAux {σ : Type} [DecidableEq σ] (goal : σ → Bool) (succs : σ → List σ) :
    Nat → List (Node σ) → List σ → Option (Node σ)
  | 0, _, _ => none
  | _ + 1, [], _ => none
  | fuel + 1, n :: rest, explored =>
    if goal n.state then some n
    else
      let st := (succs n.state).foldl (dfsChildFold n) (rest, explored)
      dfsAux goal succs fuel st.1 st.2

def dfs {σ : Type} [DecidableEq σ] (initial : σ) (goal : σ → Bool)
    (succs : σ → List σ) (fuel : Nat) : Option (Node σ) :=
  dfsAux goal succs fuel [Node.mk initial none 0 0] []

/-- Body of the successor loop of `bfs` (queue discipline: each new child node
is appended at the back of the frontier). -/
def bfsChildFold {σ : Type} [DecidableEq σ] (n : Node σ)
    (acc : List (Node σ) × List σ) (c : σ) : List (Node σ) × List σ :=
  if c ∈ acc.2 then acc else (acc.1 ++ [Node.mk c (some n) 0 0], c :: acc.2)

/-- `bfs` from generic_search.h: FIFO frontier, explored set marked at first
enqueue, goal test at pop time. -/
def bfsAux {σ : Type} [DecidableEq σ] (goal : σ → Bool) (succs : σ → List σ) :
    Nat → List (Node σ) → List σ → Option (Node σ)
  | 0, _, _ => none
  | _ + 1, [], _ => none
  | fuel + 1, n :: rest, explored =>
    if goal n.state then some n
    else
      let st := (succs n.state).foldl (bfsChildFold n) (rest, explored)
      bfsAux goal succs fuel st.1 st.2

def bfs {σ : Type} [DecidableEq σ] (initial : σ) (goal : σ → Bool)
    (succs : σ → List σ) (fuel : Nat) : Option (Node σ) :=
  bfsAux goal succs fuel [Node.mk initial none 0 0] []

/-- One iteration of the successor loop of `astar` (lines 231-238 of
generic_search.h): `new_cost = current->cost + 1`; the child is recorded in
the best-cost map and pushed exactly when it has no entry yet or the new cost
beats the recorded one (`!explored.count(child) || explored[child] > new_cost`). -/
def astarStep {σ : Type} [DecidableEq σ] (h : σ → ℚ) (n : Node σ)
    (acc : List (σ × ℚ) × List (Node σ)) (c : σ) : List (σ × ℚ) × List (Node σ) :=
  let new_cost := n.cost + 1
  match lookupA acc.1 c with
  | none => (insertA acc.1 c new_cost, acc.2 ++ [Node.mk c (some n) new_cost (h c)])
  | some old =>
      if old > new_cost then
        (insertA acc.1 c new_cost, acc.2 ++ [Node.mk c (some n) new_cost (h c)])
      else acc

/-- The f-value `cost + heuristic` that `Node::operator<` compares. -/
def fval {σ : Type} (n : Node σ) : ℚ := n.cost + n.heuristic

/-- Pop of the C++ `std::priority_queue` under its element comparison: the
queue hands out a LARGEST element (`top()` is the greatest element of the
max-heap).  The C++ code instantiates `std::priority_queue<Node<T>*>`, whose
default `std::less` compares raw pointer values and never calls
`Node::operator<`; this model charitably uses the one comparison the source
defines, `Node::operator<` (f-value), keeping `std::priority_queue`'s
pop-largest semantics.  Ties go to the earliest element. -/
def popMax {σ : Type} : List (Node σ) → Option (Node σ × List (Node σ))
  | [] => none
  | n :: rest =>
    match popMax rest with
    | none => some (n, [])
    | some (m, others) =>
        if fval n < fval m then some (m, n :: others) else some (n, rest)

/-- `astar` from generic_search.h with the frontier behaviour described at
`popMax`. -/
def astarAux {σ : Type} [DecidableEq σ] (goal : σ → Bool) (succs : σ → List σ)
    (h : σ → ℚ) : Nat → List (Node σ) → List (σ × ℚ) → Option (Node σ)
  | 0, _, _ => none
  | fuel + 1, frontier, explored =>
    match popMax frontier with
    | none => none
    | some (n, rest) =>
      if goal n.state then some n
      else
        let st := (succs n.state).foldl (astarStep h n) (explored, rest)
        astarAux goal succs h fuel st.2 st.1

def astar {σ : Type} [DecidableEq σ] (initial : σ) (goal : σ → Bool)
    (succs : σ → List σ) (h : σ → ℚ) (fuel : Nat) : Option (Node σ) :=
  astarAux goal succs h fuel [Node.mk initial none 0 (h initial)] []

/-- The sequence of states `astar` pops from its frontier, in pop order
(stopping at the goal or at frontier exhaustion). -/
def astarTrace {σ : Type} [DecidableEq σ] (goal : σ → Bool) (succs : σ → List σ)
    (h : σ → ℚ) : Nat → List (Node σ) → List (σ × ℚ) → List σ
  | 0, _, _ => []
  | fuel + 1, frontier, explored =>
    match popMax frontier with
    | none => []
    | some (n, rest) =>
      if goal n.state then [n.state]
      else
        let st := (succs n.state).foldl (astarStep h n) (explored, rest)
        n.state :: astarTrace goal succs h fuel st.2 st.1

/-! ## The CSP framework from csp.h

`Constraint<V, D>` is an abstract class holding the variables the constraint
is between plus a virtual `satisfied`; it is modelled as a record holding the
variable list and the (pure) predicate.  `CSP<V, D>` holds `_variables`,
`_domains`, `_constraints`; the two `std::unordered_map`s are association
lists.  Both constructor-time `throw std::invalid_argument` sites become
`Except.error`. -/

structure Constraintm (V D : Type) where
  cvars : List V
  sat : List (V × D) → Bool

structure CSPm (V D : Type) where
  vars : List V
  domains : List (V × List D)
  constraints : List (V × List (Constraintm V D))

def isErr {ε α : Type} : Except ε α → Bool
  | .error _ => true
  | .ok _ => false

/-- Constructor loop of `CSP::CSP`: for each declared variable, create its
empty constraint list, then throw when the variable has no domain. -/
def CSP_makeLoop {V D : Type} [DecidableEq V] (domains : List (V × List D)) :
    List V → List (V × List (Constraintm V D)) →
    Except String (List (V × List (Constraintm V D)))
  | [], acc => .ok acc
  | v :: rest, acc =>
    let acc1 := insertA acc v []
    if (lookupA domains v).isNone then
      .error "Every variable should have a domain assigned to it."
    else CSP_makeLoop domains rest acc1

/-- `CSP::CSP(variables, domains)`. -/
def CSP_make {V D : Type} [DecidableEq V] (vars : List V)
    (domains : List (V × List D)) : Except String (CSPm V D) :=
  (CSP_makeLoop domains vars []).map (fun cs => ⟨vars, domains, cs⟩)

/-- `_constraints[variable].push_back(constraint)`: `operator[]` inserts an
empty list when the key is absent, then the constraint is appended. -/
def pushC {V D : Type} [DecidableEq V] (m : List (V × List (Constraintm V D)))
    (v : V) (c : Constraintm V D) : List (V × List (Constraintm V D)) :=
  insertA m v ((lookupA m v).getD [] ++ [c])

/-- Loop of `CSP::add_constraint`: for each variable of the constraint, throw
when it is not a declared variable, otherwise register the constraint under
it (earlier variables are registered before a later one throws). -/
def add_constraintLoop {V D : Type} [DecidableEq V] (vars : List V)
    (c : Constraintm V D) :
    List V → List (V × List (Constraintm V D)) →
    Except String (List (V × List (Constraintm V D)))
  | [], acc => .ok acc
  | v :: rest, acc =>
    if v ∈ vars then add_constraintLoop vars c rest (pushC acc v c)
    else .error "Variable in constraint not in CSP"

/-- `CSP::add_constraint`. -/
def add_constraint {V D : Type} [DecidableEq V] (csp : CSPm V D)
    (c : Constraintm V D) : Except String (CSPm V D) :=
  (add_constraintLoop csp.vars c c.cvars csp.constraints).map
    (fun m => { csp with constraints := m })

/-- `CSP::consistent`: every constraint registered on `v` must be satisfied
by the assignment (the C++ loop returns `false` at the first violation). -/
def consistent {V D : Type} [DecidableEq V] (csp : CSPm V D) (v : V)
    (a : List (V × D)) : Bool :=
  ((lookupA csp.constraints v).getD []).all (fun c => c.sat a)

/-- Value loop of `CSP::backtracking_search`: try each domain value in order;
on a consistent extension recurse, and propagate any non-empty result
immediately. -/
def btGo {V D : Type} [DecidableEq V] (csp : CSPm V D)
    (recurse : List (V × D) → List (V × D)) (a : List (V × D)) (first : V) :
    List D → List (V × D)
  | [] => []
  | value :: rest =>
    let la := insertA a first value
    if consistent csp first la then
      let result := recurse la
      if result.length ≠ 0 then result else btGo csp recurse a first rest
    else btGo csp recurse a first rest

/-- `CSP::backtracking_search` (fuelled; the C++ recursion depth is bounded by
the number of variables, so any fuel beyond that is equivalent).  The
`unassigned` vector is the declaration-order filter of the variables; its
front is the branching variable.  The empty map is both the base-case success
value and the "no solution" value, exactly as in the source. -/
def backtracking_search {V D : Type} [DecidableEq V] (csp : CSPm V D) :
    Nat → List (V × D) → List (V × D)
  | 0, _ => []
  | fuel + 1, a =>
    if a.length = csp.vars.length then a
    else
      match csp.vars.filter (fun v => (lookupA a v).isNone) with
      | [] => []
      | first :: _ =>
          btGo csp (backtracking_search csp fuel) a first
            ((lookupA csp.domains first).getD [])

/-! ## The three `Constraint` subclasses (map coloring, N-queens, SEND+MORE=MONEY) -/

/-- `MapColoringConstraint::satisfied`: true when either place is unassigned,
otherwise the two colors must differ. -/
def mapSatisfied (place1 place2 : String) (a : List (String × String)) : Bool :=
  match lookupA a place1, lookupA a place2 with
  | some v1, some v2 => v1 != v2
  | _, _ => true

/-- The integers `lo, lo+1, …, hi` (empty when `hi < lo`): the index set of
the C++ loop `for (int q2c = lo; q2c <= hi; ++q2c)`. -/
def intRange (lo hi : Int) : List Int :=
  (List.range (hi + 1 - lo).toNat).map (fun i => lo + i)

/-- `QueensConstraint::satisfied`: for every assigned queen `(q1c, q1r)` and
every assigned column `q2c` in `q1c+1 … columns.size()`, the two queens must
differ in row and must not share a diagonal. -/
def queensSatisfied (columns : List Int) (a : List (Int × Int)) : Bool :=
  a.all (fun q1 =>
    (intRange (q1.1 + 1) (columns.length : Int)).all (fun q2c =>
      match lookupA a q2c with
      | none => true
      | some q2r =>
          !(q1.2 == q2r) && !((q1.2 - q2r).natAbs == (q1.1 - q2c).natAbs)))

/-- `SendMoreMoneyConstraint::satisfied`: reject duplicate digits; once all
letters are assigned check `send + more == money`; otherwise report no
conflict. -/
def smmSatisfied (letters : List String) (a : List (String × Int)) : Bool :=
  if ((a.map Prod.snd).dedup).length < a.length then false
  else if a.length = letters.length then
    let g := fun x => (lookupA a x).getD 0
    let s := g "S"
    let e := g "E"
    let n := g "N"
    let d := g "D"
    let m := g "M"
    let o := g "O"
    let r := g "R"
    let y := g "Y"
    let send := s * 1000 + e * 100 + n * 10 + d
    let more := m * 1000 + o * 100 + r * 10 + e
    let money := m * 10000 + o * 1000 + n * 100 + e * 10 + y
    send + more == money
  else true

/-! ## A concrete A* instance (the failing input for the frontier-ordering claim)

Diamond graph `0 → {1, 2}`, `1 → 3`, `2 → 3`, goal `3`, heuristic `10` on
state `1` and `0` elsewhere.  After the root is expanded the frontier holds a
node for state `1` with `cost+heuristic = 11` and a node for state `2` with
`cost+heuristic = 1`. -/

def c1goal : Nat → Bool := fun s => s == 3

def c1succs : Nat → List Nat
  | 0 => [1, 2]
  | 1 => [3]
  | 2 => [3]
  | _ => []

def c1h : Nat → ℚ := fun s => if s = 1 then 10 else 0

def c1root : Node Nat := .mk 0 none 0 (c1h 0)

/-- The frontier right after the root of the diamond instance is expanded. -/
def c1frontier1 : List (Node Nat) :=
  ((c1succs 0).foldl (astarStep c1h c1root) ([], [])).2

/-! ## Concrete CSP instances -/

/-- A binary not-equal constraint between variables 0 and 1 (partial-friendly,
in the style of `MapColoringConstraint`). -/
def neqC : Constraintm Nat Nat :=
  ⟨[0, 1], fun a =>
    match lookupA a 0, lookupA a 1 with
    | some x, some y => x != y
    | _, _ => true⟩

/-- Zero-variable CSP (what `CSP({}, {})` constructs). -/
def zeroCSP : CSPm Nat Nat := ⟨[], [], []⟩

/-- CSP as produced by the constructor, before any `add_constraint`. -/
def tinyBase : CSPm Nat Nat :=
  ⟨[0, 1], [(0, [0, 1]), (1, [0, 1])], [(0, []), (1, [])]⟩

/-- `tinyBase` after `add_constraint(neqC)`. -/
def tinyCSP : CSPm Nat Nat :=
  ⟨[0, 1], [(0, [0, 1]), (1, [0, 1])], [(0, [neqC]), (1, [neqC])]⟩

/-- Unsatisfiable instance: two variables sharing the single-value domain
`{0}` under the not-equal constraint. -/
def unsatCSP : CSPm Nat Nat :=
  ⟨[0, 1], [(0, [0]), (1, [0])], [(0, [neqC]), (1, [neqC])]⟩

/-- A complete, constraint-satisfying, domain-respecting assignment. -/
def IsSolution {V D : Type} [DecidableEq V] (csp : CSPm V D)
    (a : List (V × D)) : Prop :=
  (∀ v ∈ csp.vars, ∃ d, lookupA a v = some d ∧ d ∈ (lookupA csp.domains v).getD []) ∧
  (∀ v ∈ csp.vars, ∀ c ∈ (lookupA csp.constraints v).getD [], c.sat a = true)

instance {V D : Type} [DecidableEq V] [DecidableEq D] (csp : CSPm V D)
    (a : List (V × D)) : Decidable (IsSolution csp a) := by
  unfold IsSolution
  infer_instance

/-- The invariant `CSP::CSP` establishes: every declared variable has a domain
entry and a (possibly empty) constraint-registry entry. -/
def WFcsp {V D : Type} [DecidableEq V] (csp : CSPm V D) : Prop :=
  (∀ v ∈ csp.vars, (lookupA csp.domains v).isSome) ∧
  (∀ v ∈ csp.vars, (lookupA csp.constraints v).isSome)

instance {V D : Type} [DecidableEq V] (csp : CSPm V D) :
    Decidable (WFcsp csp) := by
  unfold WFcsp
  infer_instance

/-! ## Stateful model of backtracking_search (for the frame claim)

The only places where the C++ `backtracking_search` (and the `consistent` it
calls) touches the CSP's own maps are the subscript accesses `_domains[first]`
and `_constraints[variable]`; `std::unordered_map::operator[]` inserts a
default-constructed value when the key is absent.  This model threads the CSP
through both accesses with exactly that get-or-insert semantics, so that "the
registries are never mutated" becomes a provable statement instead of an
artifact of a pure embedding. -/

/-- `m[k]` of `std::unordered_map`: return the mapped value, inserting a
default when the key is absent. -/
def mapGetD {V α : Type} [DecidableEq V] (m : List (V × α)) (k : V) (dflt : α) :
    α × List (V × α) :=
  match lookupA m k with
  | some x => (x, m)
  | none => (dflt, m ++ [(k, dflt)])

/-- `CSP::consistent` with the `_constraints[variable]` access modelled
stateful. -/
def consistentS {V D : Type} [DecidableEq V] (csp : CSPm V D) (v : V)
    (a : List (V × D)) : Bool × CSPm V D :=
  let r := mapGetD csp.constraints v []
  (r.1.all (fun c => c.sat a), { csp with constraints := r.2 })

/-- Value loop of the stateful `backtracking_search`. -/
def btGoS {V D : Type} [DecidableEq V]
    (recurse : CSPm V D → List (V × D) → List (V × D) × CSPm V D)
    (a : List (V × D)) (first : V) :
    CSPm V D → List D → List (V × D) × CSPm V D
  | csp, [] => ([], csp)
  | csp, value :: rest =>
    let la := insertA a first value
    let c1 := consistentS csp first la
    if c1.1 then
      let r := recurse c1.2 la
      if r.1.length ≠ 0 then r else btGoS recurse a first r.2 rest
    else btGoS recurse a first c1.2 rest

/-- `CSP::backtracking_search` with the registry accesses modelled stateful;
returns the result together with the CSP object as it stands after the call. -/
def backtracking_searchS {V D : Type} [DecidableEq V] :
    Nat → CSPm V D → List (V × D) → List (V × D) × CSPm V D
  | 0, csp, _ => ([], csp)
  | fuel + 1, csp, a =>
    if a.length = csp.vars.length then (a, csp)
    else
      match csp.vars.filter (fun v => (lookupA a v).isNone) with
      | [] => ([], csp)
      | first :: _ =>
        let r := mapGetD csp.domains first []
        btGoS (fun c b => backtracking_searchS fuel c b) a first
          { csp with domains := r.2 } r.1

/-! ## Spec-side enumeration semantics for backtracking_search

`allTotals` lists every total choice of values for the given variables, in
the order induced by declaration order (outer) and domain order (inner) — the
left-to-right order of the backtracking search tree's leaves.  `pathConsistent`
replays the per-step consistency check of the search along one such choice.
The first-solution claim is then: `backtracking_search` returns the first
entry of the filtered enumeration (or the empty map when there is none). -/

def allTotals {V D : Type} [DecidableEq V] (doms : V → List D) :
    List V → List (List (V × D))
  | [] => [[]]
  | v :: vs => (doms v).flatMap (fun d => (allTotals doms vs).map (fun t => (v, d) :: t))

/-- Replay the branch-time consistency checks along a value choice. -/
def pathConsistent {V D : Type} [DecidableEq V] (csp : CSPm V D) :
    List (V × D) → List (V × D) → Bool
  | _, [] => true
  | a, (v, d) :: rest =>
    let a2 := insertA a v d
    consistent csp v a2 && pathConsistent csp a2 rest

/-- Extend an assignment by a list of choices. -/
def extendA {V D : Type} [DecidableEq V] (a : List (V × D))
    (t : List (V × D)) : List (V × D) :=
  t.foldl (fun b p => insertA b p.1 p.2) a

/-- The declaration-ordered list of variables not yet assigned. -/
def unassignedVars {V D : Type} [DecidableEq V] (csp : CSPm V D)
    (a : List (V × D)) : List V :=
  csp.vars.filter (fun v => (lookupA a v).isNone)

/-- All complete extensions of `a` that pass every branch-time consistency
check, in search order. -/
def specSolutions {V D : Type} [DecidableEq V] (csp : CSPm V D)
    (a : List (V × D)) : List (List (V × D)) :=
  ((allTotals (fun v => (lookupA csp.domains v).getD []) (unassignedVars csp a)).filter
    (pathConsistent csp a)).map (extendA a)

/-! ## Path predicates and the ghost machine for the BFS optimality claim -/

/-- Successor-linked list of states. -/
def Linked {σ : Type} (succs : σ → List σ) (p : List σ) : Prop :=
  List.Chain' (fun a b => b ∈ succs a) p

/-- A path of the implicit search graph: starts at `initial`, each step moves
to a successor. -/
def ValidPath {σ : Type} (initial : σ) (succs : σ → List σ) (p : List σ) : Prop :=
  p.head? = some initial ∧ Linked succs p

/-- `bfsAux` with a ghost trace of the (state, depth) pairs of the nodes
popped and expanded so far; the trace influences nothing. -/
def bfsAuxG {σ : Type} [DecidableEq σ] (goal : σ → Bool) (succs : σ → List σ) :
    Nat → List (Node σ) → List σ → List (σ × Nat) → Option (Node σ)
  | 0, _, _, _ => none
  | _ + 1, [], _, _ => none
  | fuel + 1, n :: rest, explored, popped =>
    if goal n.state then some n
    else
      let st := (succs n.state).foldl (bfsChildFold n) (rest, explored)
      bfsAuxG goal succs fuel st.1 st.2 (popped ++ [(n.state, n.depth)])

/-- Loop invariant of `bfs`, over frontier `Q`, explored set `E` and the
ghost list `P` of popped (state, depth) pairs. -/
structure BfsInv {σ : Type} [DecidableEq σ] (initial : σ) (goal : σ → Bool)
    (succs : σ → List σ) (Q : List (Node σ)) (E : List σ) (P : List (σ × Nat)) :
    Prop where
  validQ : ∀ n ∈ Q, ValidPath initial succs (node_to_path n)
  sortedQ : Q.Pairwise (fun a b => Node.depth a ≤ Node.depth b)
  windowQ : ∀ h t, Q = h :: t → ∀ n ∈ Q, n.depth ≤ h.depth + 1
  popNonGoal : ∀ se ∈ P, goal se.1 = false
  popBound : ∀ se ∈ P, ∀ h t, Q = h :: t → se.2 ≤ h.depth
  popExpand : ∀ se ∈ P, ∀ c ∈ succs se.1,
    (∃ n ∈ Q, n.state = c ∧ n.depth ≤ se.2 + 1) ∨
    (∃ e, (c, e) ∈ P ∧ e ≤ se.2 + 1)
  expWitness : ∀ s ∈ E, (∃ n ∈ Q, n.state = s) ∨ (∃ e, (s, e) ∈ P)
  rootW : (∃ n ∈ Q, n.state = initial ∧ n.depth = 0) ∨ ((initial, 0) ∈ P)

/-! ## A concrete BFS instance (for the witness of the optimality claim) -/

def c4goal : Nat → Bool := fun s => s == 1

def c4succs : Nat → List Nat
  | 0 => [1]
  | _ => []

def c4node : Node Nat := .mk 1 (some (.mk 0 none 0 0)) 0 0

/-! # Theorems -/

/-! ## Association lists -/

theorem lookupA_insertA_self {V D : Type} [DecidableEq V]
    (m : List (V × D)) (k : V) (v : D) : lookupA (insertA m k v) k = some v := by
  induction m with
  | nil => simp [insertA, lookupA]
  | cons hd tl ih =>
    obtain ⟨k1, v1⟩ := hd
    by_cases h : k1 = k
    · simp [insertA, h, lookupA]
    · simp [insertA, h, lookupA, ih]

theorem lookupA_insertA_ne {V D : Type} [DecidableEq V]
    (m : List (V × D)) (k k1 : V) (v : D) (h : k ≠ k1) :
    lookupA (insertA m k v) k1 = lookupA m k1 := by
  induction m with
  | nil => simp [insertA, lookupA, h]
  | cons hd tl ih =>
    obtain ⟨a, b⟩ := hd
    by_cases ha : a = k
    · subst ha
      simp [insertA, lookupA, h]
    · simp [insertA, ha, lookupA, ih]

theorem insertA_length_of_not_mem {V D : Type} [DecidableEq V]
    (m : List (V × D)) (k : V) (v : D) (h : lookupA m k = none) :
    (insertA m k v).length = m.length + 1 := by
  induction m with
  | nil => simp [insertA]
  | cons hd tl ih =>
    obtain ⟨a, b⟩ := hd
    by_cases ha : a = k
    · simp [lookupA, ha] at h
    · simp [lookupA, ha] at h
      simp [insertA, ha, ih h]

/-! ## node_to_path -/

theorem node_to_path_root {σ : Type} (s : σ) (c h : ℚ) :
    node_to_path (Node.mk s none c h) = [s] := rfl

theorem node_to_path_child {σ : Type} (s : σ) (p : Node σ) (c h : ℚ) :
    node_to_path (Node.mk s (some p) c h) = node_to_path p ++ [s] := by
  simp [node_to_path, collectStates]

theorem node_to_path_eq_statesFromRoot {σ : Type} :
    (n : Node σ) → node_to_path n = statesFromRoot n
  | .mk _ none _ _ => rfl
  | .mk s (some q) c h => by
      rw [node_to_path_child, statesFromRoot, node_to_path_eq_statesFromRoot q]

theorem node_to_path_length {σ : Type} :
    (n : Node σ) → (node_to_path n).length = chainCount n
  | .mk _ none _ _ => rfl
  | .mk s (some q) c h => by
      rw [node_to_path_child, chainCount]
      simp [node_to_path_length q]

theorem node_to_path_ne_nil {σ : Type} (n : Node σ) : node_to_path n ≠ [] := by
  intro hnil
  have := node_to_path_length n
  rw [hnil] at this
  cases n with
  | mk s p c h => cases p <;> simp [chainCount] at this

theorem node_to_path_head {σ : Type} :
    (n : Node σ) → (node_to_path n).head? = some (rootState n)
  | .mk _ none _ _ => rfl
  | .mk s (some q) c h => by
      rw [node_to_path_child, rootState]
      rw [List.head?_append_of_ne_nil _ (node_to_path_ne_nil q)]
      exact node_to_path_head q

theorem node_to_path_getLast {σ : Type} (n : Node σ) :
    (node_to_path n).getLast? = some n.state := by
  cases n with
  | mk s p c h =>
    cases p with
    | none => rfl
    | some q => rw [node_to_path_child]; simp [Node.state]

theorem node_to_path_length_depth {σ : Type} :
    (n : Node σ) → (node_to_path n).length = n.depth + 1
  | .mk _ none _ _ => rfl
  | .mk s (some q) c h => by
      rw [node_to_path_child, Node.depth]
      simp [node_to_path_length_depth q]

/-- C8: for every node (parent chains of the inductive node type are always
finite), `node_to_path` returns the states from the root — the node with
absent parent — to the given node, in that order; its length equals the
number of nodes in the parent chain; being a pure function of the chain it is
deterministic. -/
theorem claim_C8_node_to_path {σ : Type} (n : Node σ) :
    node_to_path n = statesFromRoot n ∧
    (node_to_path n).length = chainCount n ∧
    (node_to_path n).head? = some (rootState n) ∧
    (node_to_path n).getLast? = some n.state :=
  ⟨node_to_path_eq_statesFromRoot n, node_to_path_length n,
   node_to_path_head n, node_to_path_getLast n⟩

/-! ## A* frontier ordering (claim C1) -/

/-- C1: FALSIFIED by the code.  `astar` instantiates
`std::priority_queue<Node<T>*>`: the default comparator orders raw pointers,
`Node::operator<` is never called, and `std::priority_queue::top` yields a
LARGEST element.  Under the charitable reading that uses the source's own
`Node::operator<` (f-value comparison, see `popMax`), the run on the diamond
instance pops state `1` (whose `cost + heuristic` is `11`) while the node for
state `2` with `cost + heuristic = 1` is pending: the popped node maximises,
not minimises, `cost + heuristic`.  The trace is `[0, 1, 3]` and the returned
path `[0, 1, 3]` goes through the expensive node. -/
theorem claim_C1_astar_pops_expensive_node_first :
    astarTrace c1goal c1succs c1h 10 [c1root] [] = [0, 1, 3] ∧
    c1frontier1.map fval = [11, 1] ∧
    (popMax c1frontier1).map (fun x => fval x.1) = some 11 ∧
    (popMax c1frontier1).map (fun x => x.1.state) = some 1 ∧
    (astar 0 c1goal c1succs c1h 10).map node_to_path = some [0, 1, 3] := by
  refine ⟨?_, ?_, ?_, ?_, ?_⟩
  · norm_num [astarTrace, popMax, astarStep, c1goal, c1succs, c1h, c1root, fval,
      Node.state, Node.cost, Node.heuristic, lookupA, insertA]
  · norm_num [c1frontier1, astarStep, c1succs, c1h, c1root, fval,
      Node.cost, Node.heuristic, lookupA, insertA]
  · norm_num [c1frontier1, popMax, astarStep, c1succs, c1h, c1root, fval,
      Node.cost, Node.heuristic, lookupA, insertA]
  · norm_num [c1frontier1, popMax, astarStep, c1succs, c1h, c1root, fval,
      Node.state, Node.cost, Node.heuristic, lookupA, insertA]
  · norm_num [astar, astarAux, popMax, astarStep, c1goal, c1succs, c1h, fval,
      Node.state, Node.cost, Node.heuristic, lookupA, insertA, node_to_path,
      collectStates]

/-! ## The A* expansion step (claim C6) -/

/-- C6: in the successor loop of `astar`, the new cost is exactly the
expanded node's cost plus 1, and the successor is recorded in the best-cost
map and pushed (with `heuristic(successor)`) if and only if it has no
recorded cost yet or the new cost is strictly smaller, in which case the
recorded entry is overwritten. -/
theorem claim_C6_astar_expansion {σ : Type} [DecidableEq σ] (h : σ → ℚ)
    (n : Node σ) (explored : List (σ × ℚ)) (pushed : List (Node σ)) (c : σ) :
    ((lookupA explored c = none ∨
        (∃ old, lookupA explored c = some old ∧ n.cost + 1 < old)) →
      astarStep h n (explored, pushed) c =
        (insertA explored c (n.cost + 1),
         pushed ++ [Node.mk c (some n) (n.cost + 1) (h c)]) ∧
      lookupA (astarStep h n (explored, pushed) c).1 c = some (n.cost + 1)) ∧
    ((∃ old, lookupA explored c = some old ∧ old ≤ n.cost + 1) →
      astarStep h n (explored, pushed) c = (explored, pushed)) ∧
    ((astarStep h n (explored, pushed) c).2 ≠ pushed ↔
      (lookupA explored c = none ∨
        (∃ old, lookupA explored c = some old ∧ n.cost + 1 < old))) := by
  refine ⟨?_, ?_, ?_⟩
  · rintro (hnone | ⟨old, hold, hlt⟩)
    · simp [astarStep, hnone, lookupA_insertA_self]
    · simp [astarStep, hold, hlt, lookupA_insertA_self]
  · rintro ⟨old, hold, hle⟩
    simp [astarStep, hold]
    exact hle
  · constructor
    · intro hne
      by_cases hnone : lookupA explored c = none
      · exact Or.inl hnone
      · obtain ⟨old, hold⟩ := Option.ne_none_iff_exists'.mp hnone
        by_cases hlt : n.cost + 1 < old
        · exact Or.inr ⟨old, hold, hlt⟩
        · exfalso
          apply hne
          simp [astarStep, hold]
          rw [if_neg hlt]
    · rintro (hnone | ⟨old, hold, hlt⟩)
      · simp [astarStep, hnone]
      · simp [astarStep, hold, hlt]

/-- Witness for C6 at a concrete input: expanding a root of cost 0, the child
`1` (not yet recorded) is recorded with cost `0 + 1` and pushed with its
heuristic. -/
theorem claim_C6_witness :
    astarStep (fun _ => (0 : ℚ)) (Node.mk (0 : Nat) none 0 0) ([], []) 1 =
      ([(1, (Node.mk (0 : Nat) none 0 0).cost + 1)],
       [Node.mk 1 (some (Node.mk 0 none 0 0)) ((Node.mk (0 : Nat) none 0 0).cost + 1)
          ((fun _ => (0 : ℚ)) 1)]) :=
  ((claim_C6_astar_expansion (fun _ => (0 : ℚ)) (Node.mk (0 : Nat) none 0 0)
      [] [] 1).1 (Or.inl rfl)).1

/-! ## CSP construction and constraint registration (claim C7) -/

theorem isErr_map {ε α β : Type} (f : α → β) (e : Except ε α) :
    isErr (e.map f) = isErr e := by
  cases e <;> rfl

theorem CSP_makeLoop_isErr {V D : Type} [DecidableEq V]
    (domains : List (V × List D)) :
    ∀ (vs : List V) (acc : List (V × List (Constraintm V D))),
      isErr (CSP_makeLoop domains vs acc) = true ↔
        ∃ v ∈ vs, lookupA domains v = none := by
  intro vs
  induction vs with
  | nil => intro acc; simp [CSP_makeLoop, isErr]
  | cons v rest ih =>
    intro acc
    by_cases h : lookupA domains v = none
    · simp [CSP_makeLoop, h, isErr]
    · rw [CSP_makeLoop]
      rw [if_neg (by simp [h])]
      rw [ih]
      constructor
      · rintro ⟨w, hw, hnone⟩
        exact ⟨w, List.mem_cons_of_mem _ hw, hnone⟩
      · rintro ⟨w, hw, hnone⟩
        rcases List.mem_cons.mp hw with hwv | hwrest
        · exact absurd (hwv ▸ hnone) h
        · exact ⟨w, hwrest, hnone⟩

theorem add_constraintLoop_isErr {V D : Type} [DecidableEq V] (vars : List V)
    (c : Constraintm V D) :
    ∀ (vs : List V) (acc : List (V × List (Constraintm V D))),
      isErr (add_constraintLoop vars c vs acc) = true ↔ ∃ v ∈ vs, v ∉ vars := by
  intro vs
  induction vs with
  | nil => intro acc; simp [add_constraintLoop, isErr]
  | cons v rest ih =>
    intro acc
    by_cases h : v ∈ vars
    · simp only [add_constraintLoop, if_pos h]
      rw [ih]
      constructor
      · rintro ⟨w, hw, hnotin⟩
        exact ⟨w, List.mem_cons_of_mem _ hw, hnotin⟩
      · rintro ⟨w, hw, hnotin⟩
        rcases List.mem_cons.mp hw with hwv | hwrest
        · exact absurd h (hwv ▸ hnotin)
        · exact ⟨w, hwrest, hnotin⟩
    · simp [add_constraintLoop, if_neg h, isErr]
      exact Or.inl h

theorem pushC_mem_self {V D : Type} [DecidableEq V]
    (m : List (V × List (Constraintm V D))) (v : V) (c : Constraintm V D) :
    c ∈ (lookupA (pushC m v c) v).getD [] := by
  simp [pushC, lookupA_insertA_self]

theorem pushC_mem_mono {V D : Type} [DecidableEq V]
    (m : List (V × List (Constraintm V D))) (v w : V) (c x : Constraintm V D)
    (h : x ∈ (lookupA m v).getD []) :
    x ∈ (lookupA (pushC m w c) v).getD [] := by
  by_cases hvw : w = v
  · subst hvw
    rw [pushC, lookupA_insertA_self]
    simp only [Option.getD_some]
    exact List.mem_append_left _ h
  · rw [pushC, lookupA_insertA_ne _ _ _ _ hvw]
    exact h

theorem add_constraintLoop_reg {V D : Type} [DecidableEq V] (vars : List V)
    (c : Constraintm V D) :
    ∀ (vs : List V) (acc m : List (V × List (Constraintm V D))),
      add_constraintLoop vars c vs acc = .ok m →
        (∀ v x, x ∈ (lookupA acc v).getD [] → x ∈ (lookupA m v).getD []) ∧
        (∀ v ∈ vs, c ∈ (lookupA m v).getD []) := by
  intro vs
  induction vs with
  | nil =>
    intro acc m h
    simp [add_constraintLoop] at h
    subst h
    exact ⟨fun v x hx => hx, by simp⟩
  | cons v rest ih =>
    intro acc m h
    by_cases hv : v ∈ vars
    · rw [add_constraintLoop, if_pos hv] at h
      obtain ⟨mono, reg⟩ := ih (pushC acc v c) m h
      refine ⟨fun w x hx => mono w x (pushC_mem_mono acc w v c x hx), ?_⟩
      intro w hw
      rcases List.mem_cons.mp hw with hwv | hwrest
      · subst hwv
        exact mono w c (pushC_mem_self acc w c)
      · exact reg w hwrest
    · rw [add_constraintLoop, if_neg hv] at h
      cases h

/-- C7: constructing a CSP fails exactly when some declared variable lacks a
domain entry; `add_constraint` fails exactly when the constraint mentions a
variable outside the declared variable set; on success the constraint is
registered under every variable it touches. -/
theorem claim_C7_construction_and_registration {V D : Type} [DecidableEq V]
    (vars : List V) (domains : List (V × List D)) (csp : CSPm V D)
    (c : Constraintm V D) :
    (isErr (CSP_make vars domains) = true ↔ ∃ v ∈ vars, lookupA domains v = none) ∧
    (isErr (add_constraint csp c) = true ↔ ∃ v ∈ c.cvars, v ∉ csp.vars) ∧
    (∀ csp2, add_constraint csp c = .ok csp2 →
      ∀ v ∈ c.cvars, c ∈ (lookupA csp2.constraints v).getD []) := by
  refine ⟨?_, ?_, ?_⟩
  · rw [CSP_make, isErr_map]
    exact CSP_makeLoop_isErr domains vars []
  · rw [add_constraint, isErr_map]
    exact add_constraintLoop_isErr csp.vars c c.cvars csp.constraints
  · intro csp2 h v hv
    rw [add_constraint] at h
    cases hloop : add_constraintLoop csp.vars c c.cvars csp.constraints with
    | error e => rw [hloop] at h; cases h
    | ok m =>
      rw [hloop] at h
      cases h
      exact (add_constraintLoop_reg csp.vars c c.cvars csp.constraints m hloop).2 v hv

/-- Witness for C7: adding the not-equal constraint to the two-variable CSP
succeeds and registers it under variable 0. -/
theorem claim_C7_witness : neqC ∈ (lookupA tinyCSP.constraints 0).getD [] :=
  (claim_C7_construction_and_registration ([] : List Nat)
      ([] : List (Nat × List Nat)) tinyBase neqC).2.2 tinyCSP rfl 0 (by decide)

/-! ## Zero-variable CSP: success and failure collapse (claims C10, C3) -/

/-- C10: a zero-variable CSP hits the base case immediately (the empty
assignment has the size of the variable list) and returns the empty map — a
valid solution there — while the very same empty map is what
`backtracking_search` returns on an unsatisfiable instance, which has no
solution at all: at the interface, zero-variable success and unsatisfiability
are the same value. -/
theorem claim_C10_zero_variable_conflation :
    (∀ (V D : Type) [DecidableEq V] (ds : List (V × List D))
        (cs : List (V × List (Constraintm V D))) (fuel : Nat), 0 < fuel →
        backtracking_search (CSPm.mk [] ds cs) fuel [] = []) ∧
    IsSolution zeroCSP [] ∧
    backtracking_search unsatCSP 5 [] = [] ∧
    (∀ a, ¬ IsSolution unsatCSP a) := by
  refine ⟨?_, by decide, by decide, ?_⟩
  · intro V D _ ds cs fuel hfuel
    cases fuel with
    | zero => cases hfuel
    | succ f => simp [backtracking_search]
  · rintro a ⟨h1, h2⟩
    obtain ⟨d0, hl0, hd0⟩ := h1 0 (by decide)
    obtain ⟨d1, hl1, hd1⟩ := h1 1 (by decide)
    simp [unsatCSP, lookupA] at hd0 hd1
    subst hd0
    subst hd1
    have hsat := h2 0 (by decide) neqC (by simp [unsatCSP, lookupA])
    simp [neqC, hl0, hl1] at hsat

/-- Witness for C10: the concrete zero-variable CSP returns the empty map. -/
theorem claim_C10_witness : backtracking_search zeroCSP 1 [] = [] :=
  claim_C10_zero_variable_conflation.1 Nat Nat [] [] 1 Nat.one_pos

/-- C3 as stated is FALSE: the no-solution value of `backtracking_search` is
the empty map (the unsatisfiable instance returns it, and it is no solution
there), yet for the zero-variable CSP the very same empty map is a valid
satisfying assignment and is what the search returns. -/
theorem claim_C3_counterexample :
    backtracking_search unsatCSP 5 [] = ([] : List (Nat × Nat)) ∧
    ¬ IsSolution unsatCSP [] ∧
    backtracking_search zeroCSP 2 [] = ([] : List (Nat × Nat)) ∧
    IsSolution zeroCSP [] := by
  refine ⟨by decide, by decide, by decide, by decide⟩

theorem dfsAux_sound {σ : Type} [DecidableEq σ] (goal : σ → Bool)
    (succs : σ → List σ) :
    ∀ (fuel : Nat) (Q : List (Node σ)) (E : List σ) (n : Node σ),
      dfsAux goal succs fuel Q E = some n → goal n.state = true := by
  intro fuel
  induction fuel with
  | zero => intro Q E n h; simp [dfsAux] at h
  | succ f ih =>
    intro Q E n h
    match Q with
    | [] => simp [dfsAux] at h
    | m :: rest =>
      rw [dfsAux] at h
      by_cases hg : goal m.state
      · rw [if_pos hg] at h
        cases h
        exact hg
      · rw [if_neg hg] at h
        exact ih _ _ _ h

theorem bfsAux_sound {σ : Type} [DecidableEq σ] (goal : σ → Bool)
    (succs : σ → List σ) :
    ∀ (fuel : Nat) (Q : List (Node σ)) (E : List σ) (n : Node σ),
      bfsAux goal succs fuel Q E = some n → goal n.state = true := by
  intro fuel
  induction fuel with
  | zero => intro Q E n h; simp [bfsAux] at h
  | succ f ih =>
    intro Q E n h
    match Q with
    | [] => simp [bfsAux] at h
    | m :: rest =>
      rw [bfsAux] at h
      by_cases hg : goal m.state
      · rw [if_pos hg] at h
        cases h
        exact hg
      · rw [if_neg hg] at h
        exact ih _ _ _ h

theorem astarAux_sound {σ : Type} [DecidableEq σ] (goal : σ → Bool)
    (succs : σ → List σ) (h : σ → ℚ) :
    ∀ (fuel : Nat) (F : List (Node σ)) (E : List (σ × ℚ)) (n : Node σ),
      astarAux goal succs h fuel F E = some n → goal n.state = true := by
  intro fuel
  induction fuel with
  | zero => intro F E n hh; simp [astarAux] at hh
  | succ f ih =>
    intro F E n hh
    rw [astarAux] at hh
    cases hpop : popMax F with
    | none => rw [hpop] at hh; cases hh
    | some pr =>
      obtain ⟨m, rest⟩ := pr
      rw [hpop] at hh
      dsimp only at hh
      by_cases hg : goal m.state
      · rw [if_pos hg] at hh
        cases hh
        exact hg
      · rw [if_neg hg] at hh
        exact ih _ _ _ hh

/-- C3 amended: the three searches signal NotFound as `none`, and any node
they do return satisfies the goal test, so the negative result is
distinguishable from every valid result; `backtracking_search` signals
Unsatisfiable as the empty map, which differs from every valid satisfying
assignment whenever the CSP declares at least one variable (for a
zero-variable CSP the empty map is itself the valid result — see the
counterexample). -/
theorem claim_C3_amended {σ V D : Type} [DecidableEq σ] [DecidableEq V] :
    (∀ (initial : σ) (goal : σ → Bool) (succs : σ → List σ) (fuel : Nat)
        (n : Node σ), dfs initial goal succs fuel = some n → goal n.state = true) ∧
    (∀ (initial : σ) (goal : σ → Bool) (succs : σ → List σ) (fuel : Nat)
        (n : Node σ), bfs initial goal succs fuel = some n → goal n.state = true) ∧
    (∀ (initial : σ) (goal : σ → Bool) (succs : σ → List σ) (h : σ → ℚ)
        (fuel : Nat) (n : Node σ),
        astar initial goal succs h fuel = some n → goal n.state = true) ∧
    (∀ (csp : CSPm V D) (a : List (V × D)), csp.vars ≠ [] →
        IsSolution csp a → a ≠ []) := by
  refine ⟨?_, ?_, ?_, ?_⟩
  · intro initial goal succs fuel n h
    exact dfsAux_sound goal succs fuel _ _ n h
  · intro initial goal succs fuel n h
    exact bfsAux_sound goal succs fuel _ _ n h
  · intro initial goal succs h fuel n hh
    exact astarAux_sound goal succs h fuel _ _ n hh
  · intro csp a hvars hsol ha
    subst ha
    match hv : csp.vars with
    | [] => exact hvars hv
    | v :: rest =>
      obtain ⟨d, hl, _⟩ := hsol.1 v (by rw [hv]; exact List.mem_cons_self v rest)
      simp [lookupA] at hl

/-- Witness for C3 (amended): a solution of the two-variable instance is a
non-empty map, distinguishable from the Unsatisfiable value. -/
theorem claim_C3_witness : ([((0 : Nat), (0 : Nat)), (1, 1)]) ≠ [] :=
  (claim_C3_amended (σ := Nat)).2.2.2 tinyCSP [(0, 0), (1, 1)]
    (by decide) (by decide)

/-! ## Constraint partial-assignment behaviour (claim C2) -/

/-- C2 as stated is FALSE: `QueensConstraint::satisfied` (variables: all
eight columns) returns `false` on the partial assignment with queens at
(1,1) and (2,1) although column 3 — a variable of the constraint — is not
assigned; `SendMoreMoneyConstraint::satisfied` likewise returns `false` on a
partial assignment with duplicated digits. -/
theorem claim_C2_counterexample :
    queensSatisfied [1, 2, 3, 4, 5, 6, 7, 8] [(1, 1), (2, 1)] = false ∧
    (3 : Int) ∈ ([1, 2, 3, 4, 5, 6, 7, 8] : List Int) ∧
    lookupA [((1 : Int), (1 : Int)), (2, 1)] 3 = none ∧
    smmSatisfied ["S", "E", "N", "D", "M", "O", "R", "Y"]
      [("S", 1), ("E", 1)] = false := by
  refine ⟨by decide, by decide, by decide, by decide⟩

theorem mem_intRange {lo hi x : Int} (h : x ∈ intRange lo hi) :
    lo ≤ x ∧ x ≤ hi := by
  simp [intRange] at h
  obtain ⟨i, hlt, hx⟩ := h
  omega

theorem mapColoring_partial_true (p1 p2 : String) (a : List (String × String))
    (h : lookupA a p1 = none ∨ lookupA a p2 = none) :
    mapSatisfied p1 p2 a = true := by
  rcases h with h | h
  · cases h2 : lookupA a p2 <;> simp [mapSatisfied, h, h2]
  · cases h1 : lookupA a p1 <;> simp [mapSatisfied, h, h1]

theorem smm_partial_true (letters : List String) (a : List (String × Int))
    (hnd : (a.map Prod.snd).Nodup) (hlen : a.length < letters.length) :
    smmSatisfied letters a = true := by
  rw [smmSatisfied, List.dedup_eq_self.mpr hnd]
  rw [if_neg (by simp), if_neg (by omega)]

theorem queens_noAttack_sound (cols : List Int) (a : List (Int × Int))
    (H : ∀ q1 ∈ a, ∀ q2c q2r, lookupA a q2c = some q2r → q1.1 < q2c →
        q2c ≤ (cols.length : Int) →
        q1.2 ≠ q2r ∧ (q1.2 - q2r).natAbs ≠ (q1.1 - q2c).natAbs) :
    queensSatisfied cols a = true := by
  rw [queensSatisfied, List.all_eq_true]
  intro q1 hq1
  rw [List.all_eq_true]
  intro q2c hq2c
  obtain ⟨hlo, hhi⟩ := mem_intRange hq2c
  cases hl : lookupA a q2c with
  | none => rfl
  | some q2r =>
    obtain ⟨hne, hdiag⟩ := H q1 hq1 q2c q2r hl (by omega) hhi
    simp [hne, hdiag]

/-- C2 amended: `MapColoringConstraint::satisfied` does return true whenever
one of its two places is unassigned; the other two constraints return true on
a partial assignment only when its assigned part is conflict-free — any
duplicate digits (SEND+MORE=MONEY) or attacking pair of placed queens
(N-queens) already yields false on a partial assignment — and the full
predicates (arithmetic sum check; all-pairs attack check) are decided only
once every variable of the constraint is assigned. -/
theorem claim_C2_amended :
    (∀ (p1 p2 : String) (a : List (String × String)),
        lookupA a p1 = none ∨ lookupA a p2 = none →
        mapSatisfied p1 p2 a = true) ∧
    (∀ (letters : List String) (a : List (String × Int)),
        (a.map Prod.snd).Nodup → a.length < letters.length →
        smmSatisfied letters a = true) ∧
    (∀ (cols : List Int) (a : List (Int × Int)),
        (∀ q1 ∈ a, ∀ q2c q2r, lookupA a q2c = some q2r → q1.1 < q2c →
            q2c ≤ (cols.length : Int) →
            q1.2 ≠ q2r ∧ (q1.2 - q2r).natAbs ≠ (q1.1 - q2c).natAbs) →
        queensSatisfied cols a = true) :=
  ⟨mapColoring_partial_true, smm_partial_true, queens_noAttack_sound⟩

/-- Witness for C2 (amended) at concrete inputs: an assignment leaving a
place uncolored satisfies the coloring constraint, a single conflict-free
digit satisfies the letters constraint, and a single placed queen satisfies
the queens constraint. -/
theorem claim_C2_witness :
    mapSatisfied "Western Australia" "Northern Territory"
      [("Western Australia", "red")] = true ∧
    smmSatisfied ["S", "E", "N", "D", "M", "O", "R", "Y"] [("S", 9)] = true ∧
    queensSatisfied [1, 2, 3, 4, 5, 6, 7, 8] [(1, 1)] = true := by
  refine ⟨?_, ?_, ?_⟩
  · exact claim_C2_amended.1 _ _ _ (Or.inr (by decide))
  · exact claim_C2_amended.2.1 _ _ (by decide) (by decide)
  · refine claim_C2_amended.2.2 _ _ ?_
    intro q1 hq1 q2c q2r hl hlt hle
    simp at hq1
    subst hq1
    by_cases h1 : (1 : Int) = q2c
    · exact absurd (h1 ▸ hlt) (by norm_num)
    · simp [lookupA, h1] at hl

/-! ## Frame property of backtracking_search (claim C9) -/

theorem mapGetD_present {V α : Type} [DecidableEq V] (m : List (V × α)) (k : V)
    (d : α) (h : (lookupA m k).isSome) :
    mapGetD m k d = ((lookupA m k).getD d, m) := by
  rw [mapGetD]
  cases hl : lookupA m k with
  | none => rw [hl] at h; cases h
  | some x => simp

theorem consistentS_eq {V D : Type} [DecidableEq V] (csp : CSPm V D) (v : V)
    (a : List (V × D)) (h : (lookupA csp.constraints v).isSome) :
    consistentS csp v a = (consistent csp v a, csp) := by
  simp only [consistentS, mapGetD_present _ _ _ h, consistent]

theorem btGoS_eq {V D : Type} [DecidableEq V] (csp : CSPm V D)
    (hc : ∀ v ∈ csp.vars, (lookupA csp.constraints v).isSome)
    (first : V) (hf : first ∈ csp.vars)
    (recS : CSPm V D → List (V × D) → List (V × D) × CSPm V D)
    (recP : List (V × D) → List (V × D))
    (hrec : ∀ b, recS csp b = (recP b, csp)) (a : List (V × D)) :
    ∀ values, btGoS recS a first csp values =
      (btGo csp recP a first values, csp) := by
  intro values
  induction values with
  | nil => rfl
  | cons value rest ih =>
    rw [btGoS, btGo]
    simp only [consistentS_eq csp first _ (hc first hf), hrec]
    by_cases hcons : consistent csp first (insertA a first value)
    · rw [if_pos hcons, if_pos hcons]
      by_cases hres : (recP (insertA a first value)).length ≠ 0
      · rw [if_pos hres, if_pos hres]
      · rw [if_neg hres, if_neg hres]
        exact ih
    · rw [if_neg hcons, if_neg hcons]
      exact ih

/-- C9: the backtracking search never mutates the CSP object.  In the model
where every `operator[]` access of `_domains` and `_constraints` is threaded
with `std::unordered_map`'s insert-default-when-absent semantics, a run on a
CSP satisfying the constructor invariant (every declared variable has a
domain entry and a constraint-registry entry) returns the CSP unchanged —
variables, domains and constraint registry — and computes exactly the value
of the pure model.  Each frame's own `assignment` argument is read-only in
the model (branches extend `insertA`-copies), so sibling branches never
observe each other's extensions. -/
theorem claim_C9_no_mutation {V D : Type} [DecidableEq V] (csp : CSPm V D)
    (hwf : WFcsp csp) :
    ∀ (fuel : Nat) (a : List (V × D)),
      backtracking_searchS fuel csp a = (backtracking_search csp fuel a, csp) := by
  intro fuel
  induction fuel with
  | zero => intro a; rfl
  | succ f ih =>
    intro a
    rw [backtracking_searchS, backtracking_search]
    by_cases hlen : a.length = csp.vars.length
    · rw [if_pos hlen, if_pos hlen]
    · rw [if_neg hlen, if_neg hlen]
      cases hfil : csp.vars.filter (fun v => (lookupA a v).isNone) with
      | nil => rfl
      | cons first rest =>
        have hf : first ∈ csp.vars := by
          have hmem : first ∈ csp.vars.filter (fun v => (lookupA a v).isNone) := by
            rw [hfil]
            exact List.mem_cons_self _ _
          exact List.mem_of_mem_filter hmem
        simp only [mapGetD_present _ _ _ (hwf.1 first hf)]
        exact btGoS_eq csp hwf.2 first hf _ _ (fun b => ih b) a _

/-- Witness for C9: on the concrete two-variable CSP, the stateful run
returns the CSP unchanged together with the pure result. -/
theorem claim_C9_witness :
    backtracking_searchS 5 tinyCSP [] = (backtracking_search tinyCSP 5 [], tinyCSP) :=
  claim_C9_no_mutation tinyCSP (by decide) 5 []

/-! ## backtracking_search as a first-solution search (claim C5) -/

theorem lookupA_isSome_iff {V D : Type} [DecidableEq V] (a : List (V × D)) (v : V) :
    (lookupA a v).isSome = true ↔ v ∈ a.map Prod.fst := by
  induction a with
  | nil => simp [lookupA]
  | cons p rest ih =>
    obtain ⟨k, d⟩ := p
    by_cases h : k = v
    · subst h
      simp [lookupA]
    · simp only [lookupA, if_neg h, List.map_cons, List.mem_cons, ih]
      constructor
      · exact Or.inr
      · rintro (hvk | hmem)
        · exact absurd hvk.symm h
        · exact hmem

theorem insertA_eq_append {V D : Type} [DecidableEq V] (a : List (V × D)) (k : V)
    (v : D) (h : lookupA a k = none) : insertA a k v = a ++ [(k, v)] := by
  induction a with
  | nil => simp [insertA]
  | cons p rest ih =>
    obtain ⟨k1, v1⟩ := p
    by_cases h1 : k1 = k
    · simp [lookupA, h1] at h
    · simp [lookupA, h1] at h
      simp [insertA, h1, ih h]

theorem unv_nil_iff {V D : Type} [DecidableEq V] (csp : CSPm V D)
    (hv : csp.vars.Nodup) (a : List (V × D)) (hk : (a.map Prod.fst).Nodup)
    (hsub : ∀ p ∈ a, p.1 ∈ csp.vars) :
    unassignedVars csp a = [] ↔ a.length = csp.vars.length := by
  have hsub2 : (a.map Prod.fst).toFinset ⊆ csp.vars.toFinset := by
    intro v hv2
    rw [List.mem_toFinset] at hv2 ⊢
    obtain ⟨p, hp, hpv⟩ := List.mem_map.mp hv2
    exact hpv ▸ hsub p hp
  constructor
  · intro h
    rw [unassignedVars, List.filter_eq_nil_iff] at h
    have hsup : csp.vars.toFinset ⊆ (a.map Prod.fst).toFinset := by
      intro v hv2
      rw [List.mem_toFinset] at hv2 ⊢
      rw [← lookupA_isSome_iff]
      have hne := h v hv2
      cases hl : lookupA a v with
      | none => exact absurd (by simp [hl]) hne
      | some d => rfl
    have heq : (a.map Prod.fst).toFinset = csp.vars.toFinset :=
      subset_antisymm hsub2 hsup
    have hcard := congrArg Finset.card heq
    rw [List.toFinset_card_of_nodup hk, List.toFinset_card_of_nodup hv] at hcard
    simpa using hcard
  · intro hlen
    rw [unassignedVars, List.filter_eq_nil_iff]
    intro v hv2 hnone
    have heq : (a.map Prod.fst).toFinset = csp.vars.toFinset := by
      apply Finset.eq_of_subset_of_card_le hsub2
      rw [List.toFinset_card_of_nodup hk, List.toFinset_card_of_nodup hv]
      simp [hlen]
    have hmem : v ∈ a.map Prod.fst := by
      rw [← List.mem_toFinset, heq, List.mem_toFinset]
      exact hv2
    rw [← lookupA_isSome_iff] at hmem
    rw [Option.isNone_iff_eq_none] at hnone
    rw [hnone] at hmem
    cases hmem

theorem unv_insert {V D : Type} [DecidableEq V] (csp : CSPm V D)
    (hv : csp.vars.Nodup) (a : List (V × D)) (first : V) (us : List V)
    (h : unassignedVars csp a = first :: us) (d : D) :
    unassignedVars csp (insertA a first d) = us := by
  have hpt : (fun v => (lookupA (insertA a first d) v).isNone) =
      (fun v => decide (v ≠ first) && (lookupA a v).isNone) := by
    funext v
    by_cases hv1 : v = first
    · subst hv1
      simp [lookupA_insertA_self]
    · rw [lookupA_insertA_ne a first v d (Ne.symm hv1)]
      simp [hv1]
  rw [unassignedVars, hpt, ← List.filter_filter]
  rw [show List.filter (fun v => (lookupA a v).isNone) csp.vars = first :: us from h]
  have hnodup : (first :: us).Nodup := h ▸ hv.filter _
  rw [List.filter_cons]
  rw [if_neg (by simp)]
  apply List.filter_eq_self.mpr
  intro u hu
  simp only [decide_eq_true_eq, ne_eq]
  rintro rfl
  exact (List.nodup_cons.mp hnodup).1 hu

theorem extendA_length {V D : Type} [DecidableEq V] (doms : V → List D) :
    ∀ (us : List V) (a : List (V × D)) (t : List (V × D)),
      us.Nodup → (∀ u ∈ us, lookupA a u = none) → t ∈ allTotals doms us →
      (extendA a t).length = a.length + us.length := by
  intro us
  induction us with
  | nil =>
    intro a t _ _ ht
    simp [allTotals] at ht
    subst ht
    simp [extendA]
  | cons v vs ih =>
    intro a t hnd hun ht
    simp only [allTotals, List.mem_flatMap, List.mem_map] at ht
    obtain ⟨d, hd, t2, ht2, hteq⟩ := ht
    subst hteq
    have h1 : lookupA a v = none := hun v (List.mem_cons_self _ _)
    have h2 : ∀ u ∈ vs, lookupA (insertA a v d) u = none := by
      intro u hu
      have hne : v ≠ u := by
        rintro rfl
        exact (List.nodup_cons.mp hnd).1 hu
      rw [lookupA_insertA_ne a v u d hne]
      exact hun u (List.mem_cons_of_mem _ hu)
    have := ih (insertA a v d) t2 (List.nodup_cons.mp hnd).2 h2 ht2
    rw [show extendA a ((v, d) :: t2) = extendA (insertA a v d) t2 from rfl, this]
    rw [insertA_length_of_not_mem a v d h1]
    simp [List.length_cons]
    omega

theorem specSolutions_cons_aux {V D : Type} [DecidableEq V] (csp : CSPm V D)
    (hv : csp.vars.Nodup) (a : List (V × D)) (first : V) (us : List V)
    (hunv : unassignedVars csp a = first :: us) :
    ∀ values : List D,
      ((values.flatMap (fun d =>
          (allTotals (fun v => (lookupA csp.domains v).getD []) us).map
            (fun t => (first, d) :: t))).filter (pathConsistent csp a)).map
        (extendA a)
      = values.flatMap (fun d =>
          if consistent csp first (insertA a first d) = true
          then specSolutions csp (insertA a first d) else []) := by
  intro values
  induction values with
  | nil => rfl
  | cons d rest ih =>
    rw [List.flatMap_cons, List.flatMap_cons, List.filter_append, List.map_append, ih]
    congr 1
    by_cases hcons : consistent csp first (insertA a first d) = true
    · rw [if_pos hcons, List.filter_map]
      have hpc : (pathConsistent csp a ∘ (fun t => (first, d) :: t)) =
          pathConsistent csp (insertA a first d) := by
        funext t
        simp [Function.comp, pathConsistent, hcons]
      rw [hpc, List.map_map]
      have hext : (extendA a ∘ fun t => (first, d) :: t) =
          extendA (insertA a first d) := by
        funext t
        rfl
      rw [hext, specSolutions, unv_insert csp hv a first us hunv d]
    · rw [if_neg hcons]
      rw [List.filter_eq_nil_iff.mpr, List.map_nil]
      intro t ht
      rw [List.mem_map] at ht
      obtain ⟨t2, ht2, hteq⟩ := ht
      subst hteq
      simp [pathConsistent, hcons]

theorem specSolutions_cons {V D : Type} [DecidableEq V] (csp : CSPm V D)
    (hv : csp.vars.Nodup) (a : List (V × D)) (first : V) (us : List V)
    (hunv : unassignedVars csp a = first :: us) :
    specSolutions csp a = ((lookupA csp.domains first).getD []).flatMap
      (fun d => if consistent csp first (insertA a first d) = true
        then specSolutions csp (insertA a first d) else []) := by
  rw [specSolutions, hunv, allTotals]
  exact specSolutions_cons_aux csp hv a first us hunv _

theorem btGo_first_solution {V D : Type} [DecidableEq V] (csp : CSPm V D)
    (recP : List (V × D) → List (V × D)) (a : List (V × D)) (first : V)
    (hrec : ∀ d, recP (insertA a first d) =
      (specSolutions csp (insertA a first d)).headD [])
    (hne : ∀ d s, s ∈ specSolutions csp (insertA a first d) → s.length ≠ 0) :
    ∀ values : List D,
      btGo csp recP a first values =
        (values.flatMap (fun d =>
          if consistent csp first (insertA a first d) = true
          then specSolutions csp (insertA a first d) else [])).headD [] := by
  intro values
  induction values with
  | nil => rfl
  | cons d rest ih =>
    rw [btGo, List.flatMap_cons]
    by_cases hcons : consistent csp first (insertA a first d) = true
    · rw [if_pos hcons, if_pos hcons]
      cases hs : specSolutions csp (insertA a first d) with
      | nil =>
        rw [hrec d, hs]
        rw [if_neg (by simp)]
        rw [ih]
        simp
      | cons s ss =>
        rw [hrec d, hs]
        have hlen := hne d s (by rw [hs]; exact List.mem_cons_self _ _)
        rw [if_pos (by simpa using hlen)]
        simp
    · rw [if_neg hcons, if_neg hcons]
      rw [ih]
      simp

/-- C5: `backtracking_search` always branches on the first unassigned
variable in declaration order, tries its values in domain order, and returns
the first complete branch-consistent assignment of that ordering, propagating
it without further enumeration: on any well-formed input it computes exactly
the head of `specSolutions` — the declaration-order/domain-order enumeration
of all complete branch-consistent extensions — or the empty map when that
enumeration is empty. -/
theorem claim_C5_first_solution_semantics {V D : Type} [DecidableEq V]
    (csp : CSPm V D) (hv : csp.vars.Nodup) :
    ∀ (fuel : Nat) (a : List (V × D)),
      (a.map Prod.fst).Nodup → (∀ p ∈ a, p.1 ∈ csp.vars) →
      (unassignedVars csp a).length < fuel →
      backtracking_search csp fuel a = (specSolutions csp a).headD [] := by
  intro fuel
  induction fuel with
  | zero =>
    intro a _ _ h
    omega
  | succ f ih =>
    intro a hk hsub hfuel
    rw [backtracking_search]
    by_cases hlen : a.length = csp.vars.length
    · rw [if_pos hlen]
      have hunv : unassignedVars csp a = [] := (unv_nil_iff csp hv a hk hsub).mpr hlen
      rw [specSolutions, hunv, allTotals]
      simp [pathConsistent, extendA]
    · rw [if_neg hlen]
      cases hunv : unassignedVars csp a with
      | nil => exact absurd ((unv_nil_iff csp hv a hk hsub).mp hunv) hlen
      | cons first us =>
        rw [show csp.vars.filter (fun v => (lookupA a v).isNone) = first :: us from hunv]
        dsimp only
        have hfirst_unv : first ∈ unassignedVars csp a := by
          rw [hunv]
          exact List.mem_cons_self _ _
        have hfirst_none : lookupA a first = none := by
          rw [unassignedVars, List.mem_filter] at hfirst_unv
          simpa using hfirst_unv.2
        have hfirst_mem : first ∈ csp.vars := by
          rw [unassignedVars] at hfirst_unv
          exact List.mem_of_mem_filter hfirst_unv
        have hrec : ∀ d, backtracking_search csp f (insertA a first d) =
            (specSolutions csp (insertA a first d)).headD [] := by
          intro d
          apply ih
          · rw [insertA_eq_append a first d hfirst_none, List.map_append]
            simp only [List.map_cons, List.map_nil]
            rw [List.nodup_append]
            refine ⟨hk, List.nodup_singleton _, ?_⟩
            intro x hx
            simp only [List.mem_singleton]
            rintro rfl
            rw [← lookupA_isSome_iff] at hx
            rw [hfirst_none] at hx
            cases hx
          · intro p hp
            rw [insertA_eq_append a first d hfirst_none, List.mem_append] at hp
            rcases hp with hp | hp
            · exact hsub p hp
            · simp only [List.mem_singleton] at hp
              subst hp
              exact hfirst_mem
          · rw [unv_insert csp hv a first us hunv d]
            have : (unassignedVars csp a).length = us.length + 1 := by
              rw [hunv]
              rfl
            omega
        have hne : ∀ d s, s ∈ specSolutions csp (insertA a first d) →
            s.length ≠ 0 := by
          intro d s hs
          rw [specSolutions, List.mem_map] at hs
          obtain ⟨t, ht, hteq⟩ := hs
          subst hteq
          rw [List.mem_filter] at ht
          have hnodup2 : (unassignedVars csp (insertA a first d)).Nodup :=
            hv.filter _
          have hunass2 : ∀ u ∈ unassignedVars csp (insertA a first d),
              lookupA (insertA a first d) u = none := by
            intro u hu
            rw [unassignedVars, List.mem_filter] at hu
            simpa using hu.2
          have hlt := extendA_length (fun v => (lookupA csp.domains v).getD [])
            (unassignedVars csp (insertA a first d)) (insertA a first d) t
            hnodup2 hunass2 ht.1
          rw [hlt, insertA_length_of_not_mem a first d hfirst_none]
          omega
        rw [btGo_first_solution csp _ a first hrec hne]
        rw [specSolutions_cons csp hv a first us hunv]

/-- Witness for C5: the two-variable not-equal instance computes the head of
its solution enumeration. -/
theorem claim_C5_witness :
    backtracking_search tinyCSP 3 [] = (specSolutions tinyCSP []).headD [] :=
  claim_C5_first_solution_semantics tinyCSP (by decide) 3 []
    (by decide) (by intro p hp; cases hp) (by decide)

/-! ## BFS shortest-path optimality (claim C4) -/

theorem bfsAuxG_eq {σ : Type} [DecidableEq σ] (goal : σ → Bool)
    (succs : σ → List σ) :
    ∀ (fuel : Nat) (Q : List (Node σ)) (E : List σ) (P : List (σ × Nat)),
      bfsAuxG goal succs fuel Q E P = bfsAux goal succs fuel Q E := by
  intro fuel
  induction fuel with
  | zero => intro Q E P; rfl
  | succ f ih =>
    intro Q E P
    match Q with
    | [] => rfl
    | n :: rest =>
      rw [bfsAux, bfsAuxG]
      by_cases hg : goal n.state
      · rw [if_pos hg, if_pos hg]
      · rw [if_neg hg, if_neg hg]
        exact ih _ _ _

theorem bfsChildFold_spec {σ : Type} [DecidableEq σ] (n : Node σ) :
    ∀ (cs : List σ) (Q0 : List (Node σ)) (E0 : List σ),
      ∃ news : List (Node σ),
        (cs.foldl (bfsChildFold n) (Q0, E0)).1 = Q0 ++ news ∧
        (∀ m ∈ news, ∃ c, c ∈ cs ∧ m = Node.mk c (some n) 0 0) ∧
        (∀ s ∈ E0, s ∈ (cs.foldl (bfsChildFold n) (Q0, E0)).2) ∧
        (∀ s ∈ (cs.foldl (bfsChildFold n) (Q0, E0)).2,
          s ∈ E0 ∨ ∃ m ∈ news, m.state = s) ∧
        (∀ c ∈ cs, (∃ m ∈ news, m.state = c) ∨ c ∈ E0) := by
  intro cs
  induction cs with
  | nil =>
    intro Q0 E0
    exact ⟨[], by simp, by simp, fun s hs => hs, fun s hs => Or.inl hs, by simp⟩
  | cons c rest ih =>
    intro Q0 E0
    rw [List.foldl_cons]
    by_cases hc : c ∈ E0
    · rw [show bfsChildFold n (Q0, E0) c = (Q0, E0) from by
        simp [bfsChildFold, hc]]
      obtain ⟨news, h1, h2, h3, h4, h5⟩ := ih Q0 E0
      refine ⟨news, h1, ?_, h3, h4, ?_⟩
      · intro m hm
        obtain ⟨c0, hc0, hm0⟩ := h2 m hm
        exact ⟨c0, List.mem_cons_of_mem _ hc0, hm0⟩
      · intro c2 hc2
        rcases List.mem_cons.mp hc2 with hcc | hcrest
        · exact Or.inr (hcc ▸ hc)
        · exact h5 c2 hcrest
    · rw [show bfsChildFold n (Q0, E0) c =
          (Q0 ++ [Node.mk c (some n) 0 0], c :: E0) from by
        simp [bfsChildFold, hc]]
      obtain ⟨news, h1, h2, h3, h4, h5⟩ := ih (Q0 ++ [Node.mk c (some n) 0 0]) (c :: E0)
      refine ⟨Node.mk c (some n) 0 0 :: news, ?_, ?_, ?_, ?_, ?_⟩
      · rw [h1, List.append_assoc]
        rfl
      · intro m hm
        rcases List.mem_cons.mp hm with hmc | hmn
        · exact ⟨c, List.mem_cons_self _ _, hmc⟩
        · obtain ⟨c0, hc0, hm0⟩ := h2 m hmn
          exact ⟨c0, List.mem_cons_of_mem _ hc0, hm0⟩
      · intro s hs
        exact h3 s (List.mem_cons_of_mem _ hs)
      · intro s hs
        rcases h4 s hs with hsE | ⟨m, hm, hms⟩
        · rcases List.mem_cons.mp hsE with hsc | hsE0
          · exact Or.inr ⟨Node.mk c (some n) 0 0, List.mem_cons_self _ _,
              by rw [hsc]; rfl⟩
          · exact Or.inl hsE0
        · exact Or.inr ⟨m, List.mem_cons_of_mem _ hm, hms⟩
      · intro c2 hc2
        rcases List.mem_cons.mp hc2 with hcc | hcrest
        · exact Or.inl ⟨Node.mk c (some n) 0 0, List.mem_cons_self _ _,
            by rw [hcc]; rfl⟩
        · rcases h5 c2 hcrest with ⟨m, hm, hms⟩ | hcE
          · exact Or.inl ⟨m, List.mem_cons_of_mem _ hm, hms⟩
          · rcases List.mem_cons.mp hcE with hcc2 | hcE0
            · exact Or.inl ⟨Node.mk c (some n) 0 0, List.mem_cons_self _ _,
                by rw [hcc2]; rfl⟩
            · exact Or.inr hcE0

theorem ValidPath_append_child {σ : Type} (initial : σ) (succs : σ → List σ)
    (n : Node σ) (c : σ) (h : ValidPath initial succs (node_to_path n))
    (hc : c ∈ succs n.state) :
    ValidPath initial succs (node_to_path (Node.mk c (some n) 0 0)) := by
  rw [node_to_path_child]
  constructor
  · rw [List.head?_append_of_ne_nil _ (node_to_path_ne_nil n)]
    exact h.1
  · rw [Linked, List.chain'_append]
    refine ⟨h.2, List.chain'_singleton c, ?_⟩
    intro x hx y hy
    rw [node_to_path_getLast n] at hx
    simp only [Option.mem_def, Option.some.injEq] at hx
    simp only [List.head?_cons, Option.mem_def, Option.some.injEq] at hy
    rw [← hx, ← hy]
    exact hc

theorem BfsInv_step {σ : Type} [DecidableEq σ] (initial : σ) (goal : σ → Bool)
    (succs : σ → List σ) (n : Node σ) (rest : List (Node σ)) (E : List σ)
    (P : List (σ × Nat)) (inv : BfsInv initial goal succs (n :: rest) E P)
    (hg : goal n.state = false) :
    BfsInv initial goal succs
      ((succs n.state).foldl (bfsChildFold n) (rest, E)).1
      ((succs n.state).foldl (bfsChildFold n) (rest, E)).2
      (P ++ [(n.state, n.depth)]) := by
  obtain ⟨news, hF, hnews, hEmono, hEwit, hcover⟩ :=
    bfsChildFold_spec n (succs n.state) rest E
  have hnews_depth : ∀ m ∈ news, m.depth = n.depth + 1 := by
    intro m hm
    obtain ⟨c, hc, rfl⟩ := hnews m hm
    rfl
  have hwin : ∀ x ∈ n :: rest, x.depth ≤ n.depth + 1 := inv.windowQ n rest rfl
  have hsorted_head : ∀ b ∈ rest, n.depth ≤ b.depth :=
    (List.pairwise_cons.mp inv.sortedQ).1
  have hrest_sorted : rest.Pairwise (fun a b => Node.depth a ≤ Node.depth b) :=
    (List.pairwise_cons.mp inv.sortedQ).2
  have hFdep : ∀ x ∈ rest ++ news, x.depth ≤ n.depth + 1 := by
    intro x hx
    rcases List.mem_append.mp hx with h | h
    · exact hwin x (List.mem_cons_of_mem _ h)
    · rw [hnews_depth x h]
  have hFlow : ∀ x ∈ rest ++ news, n.depth ≤ x.depth := by
    intro x hx
    rcases List.mem_append.mp hx with h | h
    · exact hsorted_head x h
    · rw [hnews_depth x h]
      omega
  have hpairP : (n.state, n.depth) ∈ P ++ [(n.state, n.depth)] :=
    List.mem_append_right _ (List.mem_singleton.mpr rfl)
  rw [hF]
  refine ⟨?_, ?_, ?_, ?_, ?_, ?_, ?_, ?_⟩
  · -- validQ
    intro x hx
    rcases List.mem_append.mp hx with h | h
    · exact inv.validQ x (List.mem_cons_of_mem _ h)
    · obtain ⟨c, hc, rfl⟩ := hnews x h
      exact ValidPath_append_child initial succs n c
        (inv.validQ n (List.mem_cons_self _ _)) hc
  · -- sortedQ
    rw [List.pairwise_append]
    refine ⟨hrest_sorted, ?_, ?_⟩
    · exact List.pairwise_of_forall_mem_list (fun a ha b hb => by
        rw [hnews_depth a ha, hnews_depth b hb])
    · intro a ha b hb
      rw [hnews_depth b hb]
      exact hwin a (List.mem_cons_of_mem _ ha)
  · -- windowQ
    intro h t hQ x hx
    have hh : h ∈ rest ++ news := by
      rw [hQ]
      exact List.mem_cons_self _ _
    have h1 := hFlow h hh
    have h2 := hFdep x hx
    omega
  · -- popNonGoal
    intro se hse
    rcases List.mem_append.mp hse with h | h
    · exact inv.popNonGoal se h
    · rw [List.mem_singleton.mp h]
      exact hg
  · -- popBound
    intro se hse h t hQ
    have hh : h ∈ rest ++ news := by
      rw [hQ]
      exact List.mem_cons_self _ _
    have hnh : n.depth ≤ h.depth := hFlow h hh
    rcases List.mem_append.mp hse with hP | hnew
    · have := inv.popBound se hP n rest rfl
      omega
    · rw [List.mem_singleton.mp hnew]
      exact hnh
  · -- popExpand
    intro se hse c hc
    rcases List.mem_append.mp hse with hP | hnew
    · rcases inv.popExpand se hP c hc with ⟨x, hx, hxs, hxd⟩ | ⟨e, he, hee⟩
      · rcases List.mem_cons.mp hx with hxn | hxr
        · right
          subst hxn
          refine ⟨x.depth, ?_, hxd⟩
          rw [← hxs]
          exact hpairP
        · exact Or.inl ⟨x, List.mem_append_left _ hxr, hxs, hxd⟩
      · exact Or.inr ⟨e, List.mem_append_left _ he, hee⟩
    · obtain rfl := List.mem_singleton.mp hnew
      rcases hcover c hc with ⟨m, hm, hms⟩ | hcE
      · left
        refine ⟨m, List.mem_append_right _ hm, hms, ?_⟩
        rw [hnews_depth m hm]
      · rcases inv.expWitness c hcE with ⟨x, hx, hxs⟩ | ⟨e, he⟩
        · rcases List.mem_cons.mp hx with hxn | hxr
          · right
            subst hxn
            refine ⟨x.depth, ?_, Nat.le_succ _⟩
            rw [← hxs]
            exact hpairP
          · left
            exact ⟨x, List.mem_append_left _ hxr, hxs,
              hwin x (List.mem_cons_of_mem _ hxr)⟩
        · right
          refine ⟨e, List.mem_append_left _ he, ?_⟩
          have hb := inv.popBound (c, e) he n rest rfl
          show e ≤ n.depth + 1
          simp at hb
          omega
  · -- expWitness
    intro s hs
    rcases hEwit s hs with hsE | ⟨m, hm, hms⟩
    · rcases inv.expWitness s hsE with ⟨x, hx, hxs⟩ | ⟨e, he⟩
      · rcases List.mem_cons.mp hx with hxn | hxr
        · right
          subst hxn
          refine ⟨x.depth, ?_⟩
          rw [← hxs]
          exact hpairP
        · exact Or.inl ⟨x, List.mem_append_left _ hxr, hxs⟩
      · exact Or.inr ⟨e, List.mem_append_left _ he⟩
    · exact Or.inl ⟨m, List.mem_append_right _ hm, hms⟩
  · -- rootW
    rcases inv.rootW with ⟨x, hx, hxs, hxd⟩ | hP
    · rcases List.mem_cons.mp hx with hxn | hxr
      · right
        rw [← hxs, ← hxd]
        subst hxn
        exact hpairP
      · exact Or.inl ⟨x, List.mem_append_left _ hxr, hxs, hxd⟩
    · exact Or.inr (List.mem_append_left _ hP)

theorem bfs_sep {σ : Type} [DecidableEq σ] (initial : σ) (goal : σ → Bool)
    (succs : σ → List σ) (nstar : Node σ) (rest : List (Node σ)) (E : List σ)
    (P : List (σ × Nat)) (inv : BfsInv initial goal succs (nstar :: rest) E P)
    (p : List σ) (hp : ValidPath initial succs p) (t : σ)
    (hlast : p.getLast? = some t) (hgoal : goal t = true) :
    nstar.depth + 1 ≤ p.length := by
  have hpne : p ≠ [] := by
    intro h
    rw [h] at hlast
    cases hlast
  have key : ∀ (i : Nat) (hi : i < p.length),
      (∃ j, j ≤ i ∧ ∃ (hj : j < p.length), ∃ x ∈ nstar :: rest,
        x.state = p.get ⟨j, hj⟩ ∧ x.depth ≤ j) ∨
      (∃ e, (p.get ⟨i, hi⟩, e) ∈ P ∧ e ≤ i) := by
    intro i
    induction i with
    | zero =>
      intro hi
      have hhead : p.head hpne = initial := by
        have h1 := List.head?_eq_head hpne
        rw [hp.1] at h1
        exact (Option.some.inj h1).symm
      have hget0 : p.get ⟨0, hi⟩ = initial := by
        rw [List.get_mk_zero, hhead]
      rcases inv.rootW with ⟨x, hx, hxs, hxd⟩ | hProot
      · left
        exact ⟨0, Nat.le_refl 0, hi, x, hx, by rw [hxs, hget0], by omega⟩
      · right
        exact ⟨0, by rw [hget0]; exact hProot, Nat.le_refl 0⟩
    | succ k ihk =>
      intro hi
      have hk : k < p.length := Nat.lt_of_succ_lt hi
      rcases ihk hk with ⟨j, hjk, hj, x, hx, hxs, hxd⟩ | ⟨e, he, hek⟩
      · left
        exact ⟨j, Nat.le_succ_of_le hjk, hj, x, hx, hxs, hxd⟩
      · have hstep : p.get ⟨k + 1, hi⟩ ∈ succs (p.get ⟨k, hk⟩) := by
          have hchain := List.chain'_iff_get.mp hp.2 k (by omega)
          exact hchain
        rcases inv.popExpand (p.get ⟨k, hk⟩, e) he (p.get ⟨k + 1, hi⟩) hstep with
          ⟨m, hm, hms, hmd⟩ | ⟨e2, he2, he2le⟩
        · left
          refine ⟨k + 1, Nat.le_refl _, hi, m, hm, hms, ?_⟩
          have hmd2 : m.depth ≤ e + 1 := hmd
          omega
        · right
          refine ⟨e2, he2, ?_⟩
          have he2b : e2 ≤ e + 1 := he2le
          omega
  have hlen1 : p.length - 1 < p.length := by
    have : 0 < p.length := List.length_pos.mpr hpne
    omega
  have hgetlast : p.get ⟨p.length - 1, hlen1⟩ = t := by
    have h1 := List.getLast?_eq_getLast p hpne
    rw [hlast] at h1
    have h2 : p.getLast hpne = t := (Option.some.inj h1).symm
    rw [← h2, List.getLast_eq_get]
  rcases key (p.length - 1) hlen1 with ⟨j, hj_le, hj, x, hx, hxs, hxd⟩ | ⟨e, he, _⟩
  · have hmin : nstar.depth ≤ x.depth := by
      rcases List.mem_cons.mp hx with h | h
      · rw [h]
      · exact (List.pairwise_cons.mp inv.sortedQ).1 x h
    omega
  · rw [hgetlast] at he
    have hng : goal t = false := inv.popNonGoal (t, e) he
    rw [hng] at hgoal
    cases hgoal

theorem BfsInv_init {σ : Type} [DecidableEq σ] (initial : σ) (goal : σ → Bool)
    (succs : σ → List σ) :
    BfsInv initial goal succs [Node.mk initial none 0 0] [] [] := by
  refine ⟨?_, ?_, ?_, ?_, ?_, ?_, ?_, ?_⟩
  · intro x hx
    rw [List.mem_singleton.mp hx]
    exact ⟨rfl, List.chain'_singleton initial⟩
  · exact List.pairwise_singleton _ _
  · intro h t hQ x hx
    rw [List.mem_singleton.mp hx]
    have : h = Node.mk initial none 0 0 := by
      have := congrArg List.head? hQ
      simpa using this.symm
    rw [this]
    exact Nat.le_succ _
  · intro se hse
    cases hse
  · intro se hse
    cases hse
  · intro se hse
    cases hse
  · intro s hs
    cases hs
  · exact Or.inl ⟨Node.mk initial none 0 0, List.mem_singleton.mpr rfl, rfl, rfl⟩

theorem bfsAuxG_optimal {σ : Type} [DecidableEq σ] (initial : σ)
    (goal : σ → Bool) (succs : σ → List σ) :
    ∀ (fuel : Nat) (Q : List (Node σ)) (E : List σ) (P : List (σ × Nat))
      (nd : Node σ),
      BfsInv initial goal succs Q E P →
      bfsAuxG goal succs fuel Q E P = some nd →
      goal nd.state = true ∧ ValidPath initial succs (node_to_path nd) ∧
      ∀ (p : List σ) (t : σ), ValidPath initial succs p →
        p.getLast? = some t → goal t = true →
        (node_to_path nd).length ≤ p.length := by
  intro fuel
  induction fuel with
  | zero =>
    intro Q E P nd _ h
    cases h
  | succ f ih =>
    intro Q E P nd inv h
    match Q with
    | [] => cases h
    | n :: rest =>
      rw [bfsAuxG] at h
      by_cases hg : goal n.state
      · rw [if_pos hg] at h
        have hnd : n = nd := Option.some.inj h
        subst hnd
        refine ⟨hg, inv.validQ n (List.mem_cons_self _ _), ?_⟩
        intro p t hp hlast hgoal
        rw [node_to_path_length_depth]
        exact bfs_sep initial goal succs n rest E P inv p hp t hlast hgoal
      · rw [if_neg hg] at h
        exact ih _ _ _ nd
          (BfsInv_step initial goal succs n rest E P inv
            (Bool.eq_false_iff.mpr hg)) h

/-- C4: whenever `bfs` returns a node, the node's reconstructed path is a
valid successor path from the initial state to a goal-satisfying state, and
its length (hence its edge count) is minimal among all successor paths from
the initial state to any state satisfying the goal test. -/
theorem claim_C4_bfs_shortest_path {σ : Type} [DecidableEq σ] (initial : σ)
    (goal : σ → Bool) (succs : σ → List σ) (fuel : Nat) (nd : Node σ)
    (h : bfs initial goal succs fuel = some nd) :
    goal nd.state = true ∧ ValidPath initial succs (node_to_path nd) ∧
    ∀ (p : List σ) (t : σ), ValidPath initial succs p →
      p.getLast? = some t → goal t = true →
      (node_to_path nd).length ≤ p.length := by
  rw [bfs, ← bfsAuxG_eq goal succs fuel _ _ []] at h
  exact bfsAuxG_optimal initial goal succs fuel _ _ [] nd
    (BfsInv_init initial goal succs) h

/-- Witness for C4 on the concrete line graph `0 → 1` with goal `1`: the
returned path is no longer than the concrete goal path `[0, 1]`. -/
theorem claim_C4_witness : (node_to_path c4node).length ≤ ([0, 1] : List Nat).length :=
  (claim_C4_bfs_shortest_path 0 c4goal c4succs 5 c4node rfl).2.2 [0, 1] 1
    (by constructor
        · rfl
        · simp [Linked, c4succs])
    rfl (by decide)

end CCSP
